import Mathlib

/-!
Verification of the go-altcoinchain consensus engine (ethash package).

Shallow embedding conventions:
* Go `*big.Int` values become `Int`; `uint64` becomes `Nat`.
* Go `big.Int.Div` is Euclidean division, matching the Lean `Int` division.
* Hashes and addresses are abstracted as `Nat`; the keccak hash of a header
  is abstracted as a caller-supplied function `Header → Nat`.
* Go maps keyed by address become association lists `List (Nat × V)`.
-/

namespace Altcoinchain

/-- Model of `types.Header` (the fields the consensus code reads). -/
structure Header where
  parentHash : Nat
  uncleHash : Nat
  coinbase : Nat
  number : Nat
  time : Nat
  difficulty : Int
  mixDigest : List Nat
  nonce : Nat
  deriving DecidableEq, Repr

/-- Model of `types.EmptyUncleHash` as a distinguished hash value. -/
def emptyUncleHash : Nat := 0

/-- `params.MinimumDifficulty` (131072, also the local constant in pos.go). -/
def minimumDifficulty : Int := 131072

/-- `params.DifficultyBoundDivisor` (2048). -/
def difficultyBoundDivisor : Int := 2048

/-- `params.DurationLimit` (13, the Frontier block-time decision boundary). -/
def durationLimit : Int := 13

/-- `expDiffPeriod` (100000), the exponential difficulty-bomb period. -/
def expDiffPeriod : Int := 100000

/-- Model of `params.ChainConfig`: the fork activation block numbers the
difficulty dispatch reads, plus `params.ETHWStartDifficulty`.
Modelled from the spec: the `params` package is not part of the sources;
epochs are totally ordered and a fork with activation block b is active at
every block number n with b ≤ n (spec section 3, DifficultyEpoch), and the
ETHW restart difficulty is an unspecified protocol constant kept here as a
configuration field. -/
structure ChainConfig where
  homesteadBlock : Option Nat
  byzantiumBlock : Option Nat
  constantinopleBlock : Option Nat
  muirGlacierBlock : Option Nat
  londonBlock : Option Nat
  arrowGlacierBlock : Option Nat
  grayGlacierBlock : Option Nat
  ethPoWForkBlock : Option Nat
  ethwStartDifficulty : Int
  deriving DecidableEq, Repr

/-- Modelled from the spec: the standard fork predicate — a fork with
activation block b is active at block n iff the block is configured and
b ≤ n ("selection picks the highest-activated epoch ≤ candidate block
number"). -/
def isBlockForked (b : Option Nat) (n : Nat) : Bool :=
  match b with
  | none => false
  | some k => k ≤ n

/-- The first EthPoW special case in `CalcDifficulty`:
EthPoWForkBlock + 2048 = next. -/
def ethPoWResetToStart (c : ChainConfig) (next : Nat) : Bool :=
  match c.ethPoWForkBlock with
  | none => false
  | some fb => fb + 2048 == next

/-- The second EthPoW special case in `CalcDifficulty`:
EthPoWForkBlock = next. -/
def ethPoWResetToOne (c : ChainConfig) (next : Nat) : Bool :=
  match c.ethPoWForkBlock with
  | none => false
  | some fb => fb == next

/-- `calcDifficultyEthPoW` from consensus.go: the Byzantium-style
adjustment with uncle-dependent offset, floored at the minimum difficulty,
with no difficulty-bomb term. -/
def calcDifficultyEthPoW (time : Nat) (parent : Header) : Int :=
  let x0 : Int := ((time : Int) - (parent.time : Int)) / 9
  let x1 : Int := if parent.uncleHash = emptyUncleHash then 1 - x0 else 2 - x0
  let x2 : Int := if x1 < -99 then -99 else x1
  let y : Int := parent.difficulty / difficultyBoundDivisor
  let x3 : Int := parent.difficulty + y * x2
  if x3 < minimumDifficulty then minimumDifficulty else x3

/-- `makeDifficultyCalculator bombDelay` from consensus.go: Byzantium rules
plus the difficulty bomb delayed by `bombDelay` blocks.  The Go closure
precomputes `bombDelayFromParent = bombDelay - 1` and clamps the
subtraction `parent.Number - bombDelayFromParent` at zero. -/
def makeDifficultyCalculator (bombDelay : Int) (time : Nat) (parent : Header) : Int :=
  let bombDelayFromParent : Int := bombDelay - 1
  let x0 : Int := ((time : Int) - (parent.time : Int)) / 9
  let x1 : Int := if parent.uncleHash = emptyUncleHash then 1 - x0 else 2 - x0
  let x2 : Int := if x1 < -99 then -99 else x1
  let y : Int := parent.difficulty / difficultyBoundDivisor
  let x3 : Int := parent.difficulty + y * x2
  let x4 : Int := if x3 < minimumDifficulty then minimumDifficulty else x3
  let fakeBlockNumber : Int :=
    if bombDelayFromParent ≤ (parent.number : Int)
    then (parent.number : Int) - bombDelayFromParent else 0
  let periodCount : Int := fakeBlockNumber / expDiffPeriod
  if periodCount > 1 then x4 + 2 ^ (periodCount - 2).toNat else x4

/-- `calcDifficultyHomestead` from consensus.go. -/
def calcDifficultyHomestead (time : Nat) (parent : Header) : Int :=
  let x0 : Int := ((time : Int) - (parent.time : Int)) / 10
  let x1 : Int := 1 - x0
  let x2 : Int := if x1 < -99 then -99 else x1
  let y : Int := parent.difficulty / difficultyBoundDivisor
  let x3 : Int := parent.difficulty + y * x2
  let x4 : Int := if x3 < minimumDifficulty then minimumDifficulty else x3
  let periodCount : Int := ((parent.number : Int) + 1) / expDiffPeriod
  if periodCount > 1 then x4 + 2 ^ (periodCount - 2).toNat else x4

/-- `calcDifficultyFrontier` from consensus.go.  Note the second
minimum-difficulty clamp (`math.BigMax`) inside the bomb branch. -/
def calcDifficultyFrontier (time : Nat) (parent : Header) : Int :=
  let adjust : Int := parent.difficulty / difficultyBoundDivisor
  let delta : Int := (time : Int) - (parent.time : Int)
  let diff0 : Int :=
    if delta < durationLimit then parent.difficulty + adjust
    else parent.difficulty - adjust
  let diff1 : Int := if diff0 < minimumDifficulty then minimumDifficulty else diff0
  let periodCount : Int := ((parent.number : Int) + 1) / expDiffPeriod
  if periodCount > 1 then max (diff1 + 2 ^ (periodCount - 2).toNat) minimumDifficulty
  else diff1

/-- `CalcDifficulty` from consensus.go: the epoch dispatch over the chain
configuration, with the custom EthPoW branch and its two reset returns. -/
def CalcDifficulty (c : ChainConfig) (time : Nat) (parent : Header) : Int :=
  let next := parent.number + 1
  if isBlockForked c.ethPoWForkBlock next then
    if ethPoWResetToStart c next then c.ethwStartDifficulty
    else if ethPoWResetToOne c next then 1
    else calcDifficultyEthPoW time parent
  else if isBlockForked c.grayGlacierBlock next then
    makeDifficultyCalculator 11400000 time parent
  else if isBlockForked c.arrowGlacierBlock next then
    makeDifficultyCalculator 10700000 time parent
  else if isBlockForked c.londonBlock next then
    makeDifficultyCalculator 9700000 time parent
  else if isBlockForked c.muirGlacierBlock next then
    makeDifficultyCalculator 9000000 time parent
  else if isBlockForked c.constantinopleBlock next then
    makeDifficultyCalculator 5000000 time parent
  else if isBlockForked c.byzantiumBlock next then
    makeDifficultyCalculator 3000000 time parent
  else if isBlockForked c.homesteadBlock next then
    calcDifficultyHomestead time parent
  else calcDifficultyFrontier time parent

/-- `stakeWeight` from pos.go. -/
def stakeWeight : Int := 50

/-- `transactionWeight` from pos.go. -/
def transactionWeight : Int := 30

/-- `trustWeight` from pos.go. -/
def trustWeight : Int := 20

/-- `totalWeight` from pos.go. -/
def totalWeight : Int := 200

/-- `CalcCustomDifficulty` from pos.go: blends the PoW difficulty with the
PoS, PoT and PoTrust adjustment factors, then floors the result at the
minimum difficulty. -/
def CalcCustomDifficulty (c : ChainConfig) (time : Nat) (parent : Header)
    (posFactor potFactor trustFactor : Int) : Int :=
  let powDifficulty := CalcDifficulty c time parent
  let posDifficulty := (powDifficulty * stakeWeight * posFactor) / totalWeight
  let potDifficulty := (powDifficulty * transactionWeight * potFactor) / totalWeight
  let trustDifficulty := (powDifficulty * trustWeight * trustFactor) / totalWeight
  let finalDifficulty := powDifficulty + posDifficulty + potDifficulty + trustDifficulty
  if finalDifficulty < minimumDifficulty then minimumDifficulty else finalDifficulty

/-- Demo chain configuration whose EthPoW fork activates at block 5. -/
def cfgEthPoWDemo : ChainConfig :=
  { homesteadBlock := none, byzantiumBlock := none, constantinopleBlock := none,
    muirGlacierBlock := none, londonBlock := none, arrowGlacierBlock := none,
    grayGlacierBlock := none, ethPoWForkBlock := some 5,
    ethwStartDifficulty := 1000000 }

/-- Demo chain configuration with no fork configured (Frontier rules). -/
def cfgFrontierDemo : ChainConfig :=
  { homesteadBlock := none, byzantiumBlock := none, constantinopleBlock := none,
    muirGlacierBlock := none, londonBlock := none, arrowGlacierBlock := none,
    grayGlacierBlock := none, ethPoWForkBlock := none,
    ethwStartDifficulty := 0 }

/-- Demo parent header at block 4 (so the candidate block is 5). -/
def parentDemo : Header :=
  { parentHash := 0, uncleHash := 0, coinbase := 0, number := 4, time := 100,
    difficulty := 1000000, mixDigest := [], nonce := 0 }

/-- Demo parent header for the Frontier epoch. -/
def parentFrontierDemo : Header :=
  { parentHash := 0, uncleHash := 0, coinbase := 0, number := 1, time := 1000,
    difficulty := 1000000, mixDigest := [], nonce := 0 }

theorem minDiff_le_floor (x : Int) :
    minimumDifficulty ≤ if x < minimumDifficulty then minimumDifficulty else x := by
  split <;> omega

theorem minDiff_le_floor_add_pow (x : Int) (k : Nat) :
    minimumDifficulty ≤
      (if x < minimumDifficulty then minimumDifficulty else x) + 2 ^ k := by
  have hp : (0 : Int) ≤ 2 ^ k := pow_nonneg (by norm_num) _
  have h := minDiff_le_floor x
  linarith

theorem minDiff_le_calcDifficultyEthPoW (time : Nat) (parent : Header) :
    minimumDifficulty ≤ calcDifficultyEthPoW time parent := by
  simp only [calcDifficultyEthPoW]
  exact minDiff_le_floor _

theorem minDiff_le_makeDifficultyCalculator (bombDelay : Int) (time : Nat)
    (parent : Header) :
    minimumDifficulty ≤ makeDifficultyCalculator bombDelay time parent := by
  simp only [makeDifficultyCalculator]
  split <;> split <;>
    first
      | exact minDiff_le_floor_add_pow _ _
      | exact minDiff_le_floor _

theorem minDiff_le_calcDifficultyHomestead (time : Nat) (parent : Header) :
    minimumDifficulty ≤ calcDifficultyHomestead time parent := by
  simp only [calcDifficultyHomestead]
  split
  · exact minDiff_le_floor_add_pow _ _
  · exact minDiff_le_floor _

theorem minDiff_le_calcDifficultyFrontier (time : Nat) (parent : Header) :
    minimumDifficulty ≤ calcDifficultyFrontier time parent := by
  simp only [calcDifficultyFrontier]
  split
  · exact le_max_right _ _
  · exact minDiff_le_floor _

/-- C1 (counterexample): at the EthPoW fork block itself `CalcDifficulty`
returns 1, which is below the protocol minimum difficulty, so the claim
that the result is never below the minimum in every epoch fails on the
custom EthPoW branch. -/
theorem calcDifficulty_below_minimum_at_ethPoWFork :
    CalcDifficulty cfgEthPoWDemo 110 parentDemo < minimumDifficulty := by decide

/-- C1 (amended): for every chain configuration, candidate time and parent
header, `CalcDifficulty` returns a value at least the protocol minimum
difficulty, in every epoch including the custom EthPoW branch, except at
the two EthPoW reset returns (the fork block itself, which returns 1, and
fork block + 2048, which returns the configured restart difficulty). -/
theorem calcDifficulty_ge_minimum (c : ChainConfig) (time : Nat) (parent : Header)
    (h1 : ethPoWResetToStart c (parent.number + 1) = false)
    (h2 : ethPoWResetToOne c (parent.number + 1) = false) :
    minimumDifficulty ≤ CalcDifficulty c time parent := by
  simp only [CalcDifficulty, h1, h2, Bool.false_eq_true, if_false]
  split_ifs
  · exact minDiff_le_calcDifficultyEthPoW time parent
  · exact minDiff_le_makeDifficultyCalculator _ time parent
  · exact minDiff_le_makeDifficultyCalculator _ time parent
  · exact minDiff_le_makeDifficultyCalculator _ time parent
  · exact minDiff_le_makeDifficultyCalculator _ time parent
  · exact minDiff_le_makeDifficultyCalculator _ time parent
  · exact minDiff_le_makeDifficultyCalculator _ time parent
  · exact minDiff_le_calcDifficultyHomestead time parent
  · exact minDiff_le_calcDifficultyFrontier time parent

/-- C1 (witness): the amended theorem applied at a concrete Frontier-epoch
input. -/
theorem calcDifficulty_ge_minimum_witness :
    ethPoWResetToStart cfgFrontierDemo (parentFrontierDemo.number + 1) = false ∧
    ethPoWResetToOne cfgFrontierDemo (parentFrontierDemo.number + 1) = false ∧
    minimumDifficulty ≤ CalcDifficulty cfgFrontierDemo 1001 parentFrontierDemo :=
  ⟨by decide, by decide,
    calcDifficulty_ge_minimum cfgFrontierDemo 1001 parentFrontierDemo
      (by decide) (by decide)⟩

/-- C2 (counterexample): at the EthPoW reset block the base PoW difficulty
is 1, but `CalcCustomDifficulty` with all three factors zero floors the
result at the minimum difficulty, so it does not return the base
difficulty unchanged. -/
theorem calcCustomDifficulty_not_base_at_reset :
    CalcCustomDifficulty cfgEthPoWDemo 110 parentDemo 0 0 0 ≠
      CalcDifficulty cfgEthPoWDemo 110 parentDemo := by decide

/-- C2 (amended): `CalcCustomDifficulty` with all three adjustment factors
zero returns exactly the base PoW difficulty computed by `CalcDifficulty`
whenever that base is at least the minimum difficulty; otherwise the
function floors the result at the minimum. -/
theorem calcCustomDifficulty_zero_factors_id (c : ChainConfig) (time : Nat)
    (parent : Header)
    (h : minimumDifficulty ≤ CalcDifficulty c time parent) :
    CalcCustomDifficulty c time parent 0 0 0 = CalcDifficulty c time parent := by
  simp only [CalcCustomDifficulty, mul_zero, Int.zero_ediv, add_zero]
  rw [if_neg (by omega)]

/-- C2 (witness): the amended theorem applied at a concrete Frontier-epoch
input whose base difficulty is above the minimum. -/
theorem calcCustomDifficulty_zero_factors_id_witness :
    minimumDifficulty ≤ CalcDifficulty cfgFrontierDemo 1001 parentFrontierDemo ∧
    CalcCustomDifficulty cfgFrontierDemo 1001 parentFrontierDemo 0 0 0 =
      CalcDifficulty cfgFrontierDemo 1001 parentFrontierDemo :=
  ⟨by decide,
    calcCustomDifficulty_zero_factors_id cfgFrontierDemo 1001 parentFrontierDemo
      (by decide)⟩

/-- C3: in the bomb-delay difficulty calculators the difficulty-bomb term
added on top of the (bomb-free) Byzantium-style adjustment is exactly zero
when periodCount ≤ 1 and exactly 2 ^ (periodCount - 2) when
periodCount ≥ 2, where periodCount = max(0, blockNumber - bombDelay)
divided by 100000 with the subtraction clamped at zero, and blockNumber is
the candidate block number parent.number + 1.  The bomb-free part is
exactly `calcDifficultyEthPoW`. -/
theorem makeDifficultyCalculator_bomb_term (bombDelay : Int) (time : Nat)
    (parent : Header) :
    makeDifficultyCalculator bombDelay time parent =
      calcDifficultyEthPoW time parent +
        (if (max 0 ((parent.number : Int) + 1 - bombDelay)) / expDiffPeriod ≤ 1
         then 0
         else
           2 ^ ((max 0 ((parent.number : Int) + 1 - bombDelay)) / expDiffPeriod
                 - 2).toNat) := by
  simp only [makeDifficultyCalculator, calcDifficultyEthPoW]
  have hfb :
      (if (bombDelay - 1 : Int) ≤ (parent.number : Int)
       then (parent.number : Int) - (bombDelay - 1) else 0) =
        max 0 ((parent.number : Int) + 1 - bombDelay) := by
    split <;> omega
  rw [hfb]
  by_cases h :
      (max 0 ((parent.number : Int) + 1 - bombDelay)) / expDiffPeriod ≤ 1
  · rw [if_neg (by omega), if_pos h, add_zero]
  · rw [if_pos (by omega), if_neg h]

/-! Registries: Go maps keyed by address become association lists. -/

/-- Lookup in an association list (models a Go map read). -/
def lookupRec {V : Type} : List (Nat × V) → Nat → Option V
  | [], _ => none
  | (b, v) :: t, a => if b = a then some v else lookupRec t a

/-- Point update of an association list (models an in-place write through a
Go map entry pointer). -/
def updRecord {V : Type} : List (Nat × V) → Nat → (V → V) → List (Nat × V)
  | [], _, _ => []
  | (b, v) :: t, a, f => if b = a then (b, f v) :: t else (b, v) :: updRecord t a f

theorem lookupRec_eq_none_iff {V : Type} (l : List (Nat × V)) (a : Nat) :
    lookupRec l a = none ↔ a ∉ l.map Prod.fst := by
  induction l with
  | nil => simp [lookupRec]
  | cons p t ih =>
    obtain ⟨b, v⟩ := p
    by_cases hba : b = a
    · subst hba
      simp [lookupRec]
    · simp [lookupRec, hba, ih, Ne.symm hba]

theorem lookupRec_updRecord_self {V : Type} (l : List (Nat × V)) (a : Nat)
    (f : V → V) :
    lookupRec (updRecord l a f) a = (lookupRec l a).map f := by
  induction l with
  | nil => simp [lookupRec, updRecord]
  | cons p t ih =>
    obtain ⟨b, v⟩ := p
    by_cases hba : b = a
    · subst hba
      simp [lookupRec, updRecord]
    · simp [lookupRec, updRecord, hba, ih]

theorem lookupRec_updRecord_ne {V : Type} (l : List (Nat × V)) (a b : Nat)
    (f : V → V) (hab : a ≠ b) :
    lookupRec (updRecord l a f) b = lookupRec l b := by
  induction l with
  | nil => simp [lookupRec, updRecord]
  | cons p t ih =>
    obtain ⟨c, v⟩ := p
    by_cases hca : c = a
    · subst hca
      simp [lookupRec, updRecord, hab]
    · simp only [updRecord, if_neg hca]
      by_cases hcb : c = b
      · simp [lookupRec, hcb]
      · simp [lookupRec, hcb, ih]

theorem map_fst_updRecord {V : Type} (l : List (Nat × V)) (a : Nat) (f : V → V) :
    (updRecord l a f).map Prod.fst = l.map Prod.fst := by
  induction l with
  | nil => simp [updRecord]
  | cons p t ih =>
    obtain ⟨b, v⟩ := p
    by_cases hba : b = a
    · simp [updRecord, hba]
    · simp [updRecord, hba, ih]

/-- Model of `Validator` from pos.go. -/
structure Validator where
  address : Nat
  stake : Int
  lastReward : Nat
  uptime : Nat
  isValidator : Bool
  deriving DecidableEq, Repr

/-- Model of `PoS` from pos.go. -/
structure PoS where
  validators : List (Nat × Validator)
  totalStake : Int
  deriving DecidableEq, Repr

/-- `NewPoS` from pos.go. -/
def NewPoS : PoS := { validators := [], totalStake := 0 }

/-- `UpdateValidator` from pos.go: first-seen addresses are inserted (with
stake added to TotalStake); repeat calls accumulate stake in the validator
record only.  LastReward is set to the block number in both branches. -/
def UpdateValidator (pos : PoS) (address : Nat) (stake : Int)
    (blockNumber : Nat) : PoS :=
  match lookupRec pos.validators address with
  | none =>
    let v : Validator :=
      { address := address, stake := stake, lastReward := blockNumber,
        uptime := 0, isValidator := true }
    { validators := (address, v) :: pos.validators,
      totalStake := pos.totalStake + stake }
  | some v =>
    let v2 : Validator :=
      { v with stake := v.stake + stake, lastReward := blockNumber }
    { validators := updRecord pos.validators address (fun _ => v2),
      totalStake := pos.totalStake }

/-- The stake currently recorded for an address (0 when absent). -/
def stakeOf (pos : PoS) (a : Nat) : Int :=
  match lookupRec pos.validators a with
  | none => 0
  | some v => v.stake

theorem totalStake_updateValidator (pos : PoS) (a : Nat) (s : Int) (n : Nat) :
    (UpdateValidator pos a s n).totalStake =
      if lookupRec pos.validators a = none then pos.totalStake + s
      else pos.totalStake := by
  unfold UpdateValidator
  cases h : lookupRec pos.validators a <;> simp [h]

theorem stakeOf_updateValidator (pos : PoS) (b : Nat) (s : Int) (n : Nat)
    (a : Nat) :
    stakeOf (UpdateValidator pos b s n) a =
      stakeOf pos a + (if b = a then s else 0) := by
  unfold UpdateValidator stakeOf
  cases h : lookupRec pos.validators b with
  | none =>
    by_cases hba : b = a
    · subst hba
      simp [lookupRec, h]
    · simp [lookupRec, hba]
  | some v =>
    by_cases hba : b = a
    · subst hba
      simp [lookupRec_updRecord_self, h]
    · simp [lookupRec_updRecord_ne _ _ _ _ hba, hba]

theorem keys_updateValidator (pos : PoS) (a : Nat) (s : Int) (n : Nat) :
    (UpdateValidator pos a s n).validators.map Prod.fst =
      if lookupRec pos.validators a = none
      then a :: pos.validators.map Prod.fst
      else pos.validators.map Prod.fst := by
  unfold UpdateValidator
  cases h : lookupRec pos.validators a <;> simp [h, map_fst_updRecord]

/-- C8: calling the stake-registry update twice with amount 0 for the same
address leaves both TotalStake and that validator's recorded stake exactly
where they started. -/
theorem updateValidator_zero_twice (pos : PoS) (a : Nat) (n1 n2 : Nat) :
    (UpdateValidator (UpdateValidator pos a 0 n1) a 0 n2).totalStake =
        pos.totalStake ∧
      stakeOf (UpdateValidator (UpdateValidator pos a 0 n1) a 0 n2) a =
        stakeOf pos a := by
  constructor
  · rw [totalStake_updateValidator, totalStake_updateValidator]
    split <;> split <;> omega
  · rw [stakeOf_updateValidator, stakeOf_updateValidator]
    simp

/-- Replaying a sequence of (address, stake, blockNumber) calls against a
PoS registry. -/
def applyStakeCalls (calls : List (Nat × Int × Nat)) (pos : PoS) : PoS :=
  calls.foldl (fun p c => UpdateValidator p c.1 c.2.1 c.2.2) pos

/-- Sum of the stake amounts of each address's first call only, relative to
a set of already-registered addresses. -/
def firstStakeSum : List (Nat × Int × Nat) → List Nat → Int
  | [], _ => 0
  | c :: t, seen =>
    if c.1 ∈ seen then firstStakeSum t seen
    else c.2.1 + firstStakeSum t (c.1 :: seen)

/-- Sum of all stake amounts passed for one address. -/
def sumStakesFor (a : Nat) : List (Nat × Int × Nat) → Int
  | [] => 0
  | c :: t => (if c.1 = a then c.2.1 else 0) + sumStakesFor a t

theorem applyStakeCalls_totalStake (calls : List (Nat × Int × Nat)) :
    ∀ pos : PoS,
      (applyStakeCalls calls pos).totalStake =
        pos.totalStake + firstStakeSum calls (pos.validators.map Prod.fst) := by
  induction calls with
  | nil => intro pos; simp [applyStakeCalls, firstStakeSum]
  | cons c t ih =>
    intro pos
    simp only [applyStakeCalls, List.foldl_cons] at ih ⊢
    rw [ih]
    rw [totalStake_updateValidator, keys_updateValidator]
    by_cases h : lookupRec pos.validators c.1 = none
    · have hmem : c.1 ∉ pos.validators.map Prod.fst :=
        (lookupRec_eq_none_iff _ _).mp h
      simp only [h, if_pos, firstStakeSum, if_neg hmem, if_true]
      ring
    · have hmem : c.1 ∈ pos.validators.map Prod.fst := by
        by_contra hn
        exact h ((lookupRec_eq_none_iff _ _).mpr hn)
      simp only [h, if_false, firstStakeSum, if_pos hmem]

theorem applyStakeCalls_stakeOf (calls : List (Nat × Int × Nat)) :
    ∀ (pos : PoS) (a : Nat),
      stakeOf (applyStakeCalls calls pos) a =
        stakeOf pos a + sumStakesFor a calls := by
  induction calls with
  | nil => intro pos a; simp [applyStakeCalls, sumStakesFor]
  | cons c t ih =>
    intro pos a
    simp only [applyStakeCalls, List.foldl_cons] at ih ⊢
    rw [ih, stakeOf_updateValidator]
    simp only [sumStakesFor]
    ring

/-- C9: after every sequence of UpdateValidator calls starting from a fresh
registry, TotalStake equals the sum of the amounts passed in each address's
first call only, while the per-validator stake accumulates every amount;
consequently TotalStake can differ from the sum of all current validator
stakes (concrete instance: two calls for one address). -/
theorem totalStake_counts_first_calls_only :
    (∀ calls : List (Nat × Int × Nat),
        (applyStakeCalls calls NewPoS).totalStake = firstStakeSum calls []) ∧
      (∀ (calls : List (Nat × Int × Nat)) (a : Nat),
        stakeOf (applyStakeCalls calls NewPoS) a = sumStakesFor a calls) ∧
      (applyStakeCalls [(1, 5, 0), (1, 7, 0)] NewPoS).totalStake ≠
        ((applyStakeCalls [(1, 5, 0), (1, 7, 0)] NewPoS).validators.map
          (fun p => p.2.stake)).sum := by
  refine ⟨fun calls => ?_, fun calls a => ?_, by decide⟩
  · rw [applyStakeCalls_totalStake]
    simp [NewPoS]
  · rw [applyStakeCalls_stakeOf]
    simp [NewPoS, stakeOf, lookupRec]

/-- Model of `TransactionRecord` from the PoT registry source. -/
structure TransactionRecord where
  address : Nat
  transactionCount : Nat
  lastTransaction : Nat
  deriving DecidableEq, Repr

/-- Model of `PoT` from the PoT registry source. -/
structure PoT where
  transactionRecords : List (Nat × TransactionRecord)
  totalTransactions : Nat
  deriving DecidableEq, Repr

/-- `NewPoT` from the PoT registry source. -/
def NewPoT : PoT := { transactionRecords := [], totalTransactions := 0 }

/-- `RecordTransaction` from the PoT registry source: a first-seen address
is inserted with count 1 and TotalTransactions is incremented; a repeat
call increments only that record's TransactionCount (and refreshes
LastTransaction). -/
def RecordTransaction (pot : PoT) (address : Nat) (blockNumber : Nat) : PoT :=
  match lookupRec pot.transactionRecords address with
  | none =>
    let r : TransactionRecord :=
      { address := address, transactionCount := 1, lastTransaction := blockNumber }
    { transactionRecords := (address, r) :: pot.transactionRecords,
      totalTransactions := pot.totalTransactions + 1 }
  | some _ =>
    { transactionRecords :=
        updRecord pot.transactionRecords address
          (fun r => { r with transactionCount := r.transactionCount + 1,
                             lastTransaction := blockNumber }),
      totalTransactions := pot.totalTransactions }

/-- The transaction count currently recorded for an address (0 when
absent). -/
def txCountOf (pot : PoT) (a : Nat) : Nat :=
  match lookupRec pot.transactionRecords a with
  | none => 0
  | some r => r.transactionCount

/-- Replaying a sequence of (address, blockNumber) calls against a PoT
registry. -/
def applyTxCalls (calls : List (Nat × Nat)) (pot : PoT) : PoT :=
  calls.foldl (fun p c => RecordTransaction p c.1 c.2) pot

theorem totalTransactions_recordTransaction (pot : PoT) (a : Nat) (n : Nat) :
    (RecordTransaction pot a n).totalTransactions =
      if lookupRec pot.transactionRecords a = none
      then pot.totalTransactions + 1 else pot.totalTransactions := by
  unfold RecordTransaction
  cases h : lookupRec pot.transactionRecords a <;> simp [h]

theorem keys_recordTransaction (pot : PoT) (a : Nat) (n : Nat) :
    (RecordTransaction pot a n).transactionRecords.map Prod.fst =
      if lookupRec pot.transactionRecords a = none
      then a :: pot.transactionRecords.map Prod.fst
      else pot.transactionRecords.map Prod.fst := by
  unfold RecordTransaction
  cases h : lookupRec pot.transactionRecords a <;> simp [h, map_fst_updRecord]

theorem txCountOf_recordTransaction (pot : PoT) (b : Nat) (n : Nat) (a : Nat) :
    txCountOf (RecordTransaction pot b n) a =
      txCountOf pot a + (if b = a then 1 else 0) := by
  unfold RecordTransaction txCountOf
  cases h : lookupRec pot.transactionRecords b with
  | none =>
    by_cases hba : b = a
    · subst hba
      simp [lookupRec, h]
    · simp [lookupRec, hba]
  | some r =>
    by_cases hba : b = a
    · subst hba
      simp [lookupRec_updRecord_self, h]
    · simp [lookupRec_updRecord_ne _ _ _ _ hba, hba]

theorem applyTxCalls_total_eq_card (calls : List (Nat × Nat)) :
    ∀ pot : PoT,
      pot.totalTransactions =
          (pot.transactionRecords.map Prod.fst).toFinset.card →
        (applyTxCalls calls pot).totalTransactions =
          ((applyTxCalls calls pot).transactionRecords.map Prod.fst).toFinset.card := by
  induction calls with
  | nil => intro pot h; simpa [applyTxCalls] using h
  | cons c t ih =>
    intro pot h
    simp only [applyTxCalls, List.foldl_cons] at ih ⊢
    apply ih
    rw [totalTransactions_recordTransaction, keys_recordTransaction]
    by_cases hc : lookupRec pot.transactionRecords c.1 = none
    · have hmem : c.1 ∉ pot.transactionRecords.map Prod.fst :=
        (lookupRec_eq_none_iff _ _).mp hc
      have hmem2 : c.1 ∉ (pot.transactionRecords.map Prod.fst).toFinset := by
        simpa using hmem
      simp [hc, h, List.toFinset_cons, Finset.card_insert_of_not_mem hmem2]
    · simp [hc, h]

theorem applyTxCalls_txCountOf (calls : List (Nat × Nat)) :
    ∀ (pot : PoT) (a : Nat),
      txCountOf (applyTxCalls calls pot) a =
        txCountOf pot a + (calls.filter (fun c => c.1 = a)).length := by
  induction calls with
  | nil => intro pot a; simp [applyTxCalls]
  | cons c t ih =>
    intro pot a
    simp only [applyTxCalls, List.foldl_cons] at ih ⊢
    rw [ih, txCountOf_recordTransaction]
    by_cases hca : c.1 = a
    · simp [List.filter_cons, hca]
      omega
    · simp [List.filter_cons, hca]

/-- C10: after every sequence of RecordTransaction calls starting from a
fresh registry, TotalTransactions equals the number of distinct addresses
present in TransactionRecords, while each record's TransactionCount counts
every call for that address; TotalTransactions therefore differs from the
total number of recorded transactions (concrete instance: two calls for
one address give TotalTransactions 1, not 2). -/
theorem totalTransactions_counts_distinct_addresses :
    (∀ calls : List (Nat × Nat),
        (applyTxCalls calls NewPoT).totalTransactions =
          ((applyTxCalls calls NewPoT).transactionRecords.map
            Prod.fst).toFinset.card) ∧
      (∀ (calls : List (Nat × Nat)) (a : Nat),
        txCountOf (applyTxCalls calls NewPoT) a =
          (calls.filter (fun c => c.1 = a)).length) ∧
      (applyTxCalls [(1, 0), (1, 0)] NewPoT).totalTransactions ≠
        ([(1, 0), (1, 0)] : List (Nat × Nat)).length := by
  refine ⟨fun calls => ?_, fun calls a => ?_, by decide⟩
  · exact applyTxCalls_total_eq_card calls NewPoT (by simp [NewPoT])
  · rw [applyTxCalls_txCountOf]
    simp [NewPoT, txCountOf, lookupRec]

/-! Reward accumulation.  The state collaborator is modelled as a balance
map from address to amount; AddBalance is the only mutation used. -/

/-- Model of `state.AddBalance`. -/
def addBalance (state : Nat → Int) (addr : Nat) (amount : Int) : Nat → Int :=
  fun a => if a = addr then state a + amount else state a

/-- Model of `Participant` from consensus.go. -/
structure Participant where
  address : Nat
  stake : Int
  transactionCount : Nat
  uptimePercentage : Nat
  deriving DecidableEq, Repr

/-- `calculateIndividualReward` from consensus.go: stake, transaction and
uptime factors multiplied, normalized by 10000 and capped at the total
reward. -/
def calculateIndividualReward (participant : Participant) (totalReward : Int) :
    Int :=
  let stakeFactor := participant.stake
  let transactionFactor : Int := (participant.transactionCount : Int)
  let uptimeFactor : Int := (participant.uptimePercentage : Int)
  let reward := stakeFactor * transactionFactor * uptimeFactor / 10000
  if reward > totalReward then totalReward else reward

/-- `getPoSAndPoTParticipants` from consensus.go: returns the empty list
(the participant enumeration is unimplemented in the source). -/
def getPoSAndPoTParticipants : List Participant := []

/-- `distributePoSPoTRewards` from consensus.go: credits each participant
returned by `getPoSAndPoTParticipants` with its individual reward. -/
def distributePoSPoTRewards (state : Nat → Int) (header : Header)
    (reward : Int) : Nat → Int :=
  getPoSAndPoTParticipants.foldl
    (fun s p => addBalance s p.address (calculateIndividualReward p reward))
    state

/-- The fixed block reward in `accumulateRewards` (1 ALT in wei). -/
def blockRewardAlt : Int := 1000000000000000000

/-- `accumulateRewards` from consensus.go: credits each uncle coinbase with
(uncleNumber + 8 - blockNumber) * blockReward / 8, accumulates
blockReward / 32 per uncle on top of the fixed PoW reward for the block
coinbase, then runs the (empty) hybrid distribution. -/
def accumulateRewards (state : Nat → Int) (header : Header)
    (uncles : List Header) : Nat → Int :=
  let blockReward := blockRewardAlt
  let powReward := blockReward
  let posPotReward := blockReward
  let res := uncles.foldl
    (fun (acc : (Nat → Int) × Int) (uncle : Header) =>
      let r1 := (((uncle.number : Int) + 8 - (header.number : Int)) * blockReward) / 8
      (addBalance acc.1 uncle.coinbase r1, acc.2 + powReward / 32))
    (state, powReward)
  let st2 := addBalance res.1 header.coinbase res.2
  distributePoSPoTRewards st2 header posPotReward

/-- C7: in the PoW reward stream, for a finalized block with at most two
uncles whose beneficiaries are pairwise distinct and distinct from the
block coinbase, each uncle beneficiary is credited exactly
(uncleNumber + 8 - blockNumber) * blockReward / 8, and the main
beneficiary is credited the fixed block reward plus blockReward / 32 per
included uncle. -/
theorem accumulateRewards_credits (state : Nat → Int) (header : Header)
    (uncles : List Header)
    (hlen : uncles.length ≤ 2)
    (hnodup : (header.coinbase :: uncles.map (fun u => u.coinbase)).Nodup) :
    (∀ u ∈ uncles,
        accumulateRewards state header uncles u.coinbase =
          state u.coinbase +
            (((u.number : Int) + 8 - (header.number : Int)) * blockRewardAlt) / 8) ∧
      accumulateRewards state header uncles header.coinbase =
        state header.coinbase + blockRewardAlt +
          (uncles.length : Int) * (blockRewardAlt / 32) := by
  rcases uncles with _ | ⟨u, _ | ⟨v, _ | ⟨w, t⟩⟩⟩
  · refine ⟨by simp, ?_⟩
    simp [accumulateRewards, distributePoSPoTRewards, getPoSAndPoTParticipants,
      addBalance]
  · have h1 : header.coinbase ≠ u.coinbase := by
      simpa using hnodup
    refine ⟨?_, ?_⟩
    · intro x hx
      simp only [List.mem_singleton] at hx
      subst hx
      simp [accumulateRewards, distributePoSPoTRewards,
        getPoSAndPoTParticipants, addBalance, Ne.symm h1]
    · simp [accumulateRewards, distributePoSPoTRewards,
        getPoSAndPoTParticipants, addBalance, h1]
      ring
  · simp only [List.map_cons, List.map_nil, List.nodup_cons, List.mem_cons,
      List.mem_singleton, List.not_mem_nil, or_false, List.nodup_nil,
      and_true, not_or] at hnodup
    obtain ⟨⟨h1, h2⟩, h3, -⟩ := hnodup
    refine ⟨?_, ?_⟩
    · intro x hx
      simp only [List.mem_cons, List.mem_singleton, List.not_mem_nil,
        or_false] at hx
      rcases hx with rfl | rfl
      · simp [accumulateRewards, distributePoSPoTRewards,
          getPoSAndPoTParticipants, addBalance, Ne.symm h1, h3, Ne.symm h3]
      · simp [accumulateRewards, distributePoSPoTRewards,
          getPoSAndPoTParticipants, addBalance, Ne.symm h2, Ne.symm h3]
    · simp [accumulateRewards, distributePoSPoTRewards,
        getPoSAndPoTParticipants, addBalance, h1, h2]
      ring
  · simp at hlen

/-- Demo header and uncles for the reward theorem. -/
def headerC7 : Header :=
  { parentHash := 0, uncleHash := 0, coinbase := 3, number := 10, time := 0,
    difficulty := 1, mixDigest := [], nonce := 0 }

/-- First demo uncle (beneficiary 1, block 9). -/
def uncleC7a : Header :=
  { parentHash := 0, uncleHash := 0, coinbase := 1, number := 9, time := 0,
    difficulty := 1, mixDigest := [], nonce := 0 }

/-- Second demo uncle (beneficiary 2, block 8). -/
def uncleC7b : Header :=
  { parentHash := 0, uncleHash := 0, coinbase := 2, number := 8, time := 0,
    difficulty := 1, mixDigest := [], nonce := 0 }

/-- C7 (witness): the reward theorem applied to a concrete block with two
uncles and distinct beneficiaries. -/
theorem accumulateRewards_credits_witness :
    ([uncleC7a, uncleC7b].length ≤ 2) ∧
      ((headerC7.coinbase ::
          [uncleC7a, uncleC7b].map (fun u => u.coinbase)).Nodup) ∧
      ((∀ u ∈ [uncleC7a, uncleC7b],
          accumulateRewards (fun _ => 0) headerC7 [uncleC7a, uncleC7b]
              u.coinbase =
            (fun _ => (0 : Int)) u.coinbase +
              (((u.number : Int) + 8 - (headerC7.number : Int)) *
                blockRewardAlt) / 8) ∧
        accumulateRewards (fun _ => 0) headerC7 [uncleC7a, uncleC7b]
            headerC7.coinbase =
          (fun _ => (0 : Int)) headerC7.coinbase + blockRewardAlt +
            (([uncleC7a, uncleC7b].length : Int)) * (blockRewardAlt / 32)) :=
  ⟨by decide, by decide,
    accumulateRewards_credits (fun _ => 0) headerC7 [uncleC7a, uncleC7b]
      (by decide) (by decide)⟩

/-! Seal verification. -/

/-- Model of the ethash PoW `Mode`. -/
inductive Mode where
  | normal
  | test
  | fake
  | fullFake
  deriving DecidableEq, Repr

/-- Outcome of `verifySeal`. -/
inductive SealResult where
  | ok
  | errInvalidDifficulty
  | errInvalidMixDigest
  | errInvalidPoW
  deriving DecidableEq, Repr

/-- `two256` (2 ^ 256), the PoW target numerator. -/
def two256 : Int := 2 ^ 256

/-- The (mixDigest, result) pair `verifySeal` obtains from the external
hashimoto computation: the full-DAG variant when a full DAG was requested
and the dataset is generated, the light-cache variant otherwise. -/
def sealHashOutput (hashimotoFull hashimotoLight : Header → List Nat × Nat)
    (datasetGenerated fulldag : Bool) (header : Header) : List Nat × Nat :=
  if fulldag && datasetGenerated then hashimotoFull header
  else hashimotoLight header

/-- `verifySeal` from consensus.go, for an engine with no shared instance.
The external dataset/cache hashing is abstracted as two functions from the
header to the (mixDigest, result) pair; in fake modes the check is
short-circuited using `fakeFail`. -/
def verifySeal (powMode : Mode) (fakeFail : Nat)
    (hashimotoFull hashimotoLight : Header → List Nat × Nat)
    (datasetGenerated fulldag : Bool) (header : Header) : SealResult :=
  if powMode = Mode.fake ∨ powMode = Mode.fullFake then
    if fakeFail = header.number then SealResult.errInvalidPoW else SealResult.ok
  else if header.difficulty ≤ 0 then SealResult.errInvalidDifficulty
  else
    let dr := sealHashOutput hashimotoFull hashimotoLight datasetGenerated
      fulldag header
    if dr.1 ≠ header.mixDigest then SealResult.errInvalidMixDigest
    else if two256 / header.difficulty < (dr.2 : Int) then SealResult.errInvalidPoW
    else SealResult.ok

/-- C6: in a non-fake mode, seal verification rejects with the
invalid-difficulty error exactly when difficulty ≤ 0; for positive
difficulty it rejects with the invalid-mix-digest error exactly when the
computed digest differs from the declared mix digest, rejects with the
invalid-PoW error exactly when the computed result exceeds
2 ^ 256 / difficulty, and succeeds otherwise. -/
theorem verifySeal_error_cases (powMode : Mode) (fakeFail : Nat)
    (hashimotoFull hashimotoLight : Header → List Nat × Nat)
    (datasetGenerated fulldag : Bool) (header : Header)
    (hm1 : powMode ≠ Mode.fake) (hm2 : powMode ≠ Mode.fullFake) :
    (verifySeal powMode fakeFail hashimotoFull hashimotoLight datasetGenerated
          fulldag header = SealResult.errInvalidDifficulty ↔
        header.difficulty ≤ 0) ∧
      (0 < header.difficulty →
        (verifySeal powMode fakeFail hashimotoFull hashimotoLight
              datasetGenerated fulldag header = SealResult.errInvalidMixDigest ↔
          (sealHashOutput hashimotoFull hashimotoLight datasetGenerated fulldag
              header).1 ≠ header.mixDigest)) ∧
      (0 < header.difficulty →
        (sealHashOutput hashimotoFull hashimotoLight datasetGenerated fulldag
            header).1 = header.mixDigest →
        (verifySeal powMode fakeFail hashimotoFull hashimotoLight
              datasetGenerated fulldag header = SealResult.errInvalidPoW ↔
          two256 / header.difficulty <
            ((sealHashOutput hashimotoFull hashimotoLight datasetGenerated
                fulldag header).2 : Int))) ∧
      (verifySeal powMode fakeFail hashimotoFull hashimotoLight
            datasetGenerated fulldag header = SealResult.ok ↔
        (0 < header.difficulty ∧
          (sealHashOutput hashimotoFull hashimotoLight datasetGenerated fulldag
              header).1 = header.mixDigest ∧
          ((sealHashOutput hashimotoFull hashimotoLight datasetGenerated
              fulldag header).2 : Int) ≤ two256 / header.difficulty)) := by
  have hmode : ¬(powMode = Mode.fake ∨ powMode = Mode.fullFake) := by
    rintro (h | h) <;> [exact hm1 h; exact hm2 h]
  simp only [verifySeal]
  rw [if_neg hmode]
  by_cases hd : header.difficulty ≤ 0
  · rw [if_pos hd]
    refine ⟨⟨fun _ => hd, fun _ => rfl⟩, fun h0 => absurd hd (by omega),
      fun h0 _ => absurd hd (by omega), ?_⟩
    constructor
    · intro h
      exact absurd h (by simp)
    · rintro ⟨h0, -, -⟩
      exact absurd hd (by omega)
  · rw [if_neg hd]
    by_cases hmix :
        (sealHashOutput hashimotoFull hashimotoLight datasetGenerated fulldag
            header).1 ≠ header.mixDigest
    · rw [if_pos hmix]
      refine ⟨⟨fun h => absurd h (by simp), fun h => absurd h hd⟩,
        fun h0 => ⟨fun _ => hmix, fun _ => rfl⟩,
        fun h0 hmix2 => absurd hmix2 hmix, ?_⟩
      constructor
      · intro h
        exact absurd h (by simp)
      · rintro ⟨-, h2, -⟩
        exact absurd h2 hmix
    · rw [if_neg hmix]
      push_neg at hmix
      by_cases hpow :
          two256 / header.difficulty <
            ((sealHashOutput hashimotoFull hashimotoLight datasetGenerated
                fulldag header).2 : Int)
      · rw [if_pos hpow]
        refine ⟨⟨fun h => absurd h (by simp), fun h => absurd h hd⟩,
          fun h0 => ⟨fun h => absurd h (by simp), fun h => absurd hmix h⟩,
          fun h0 _ => ⟨fun _ => hpow, fun _ => rfl⟩, ?_⟩
        constructor
        · intro h
          exact absurd h (by simp)
        · rintro ⟨-, -, h3⟩
          omega
      · rw [if_neg hpow]
        refine ⟨⟨fun h => absurd h (by simp), fun h => absurd h hd⟩,
          fun h0 => ⟨fun h => absurd h (by simp), fun h => absurd hmix h⟩,
          fun h0 _ => ⟨fun h => absurd h (by simp), fun h => absurd h hpow⟩, ?_⟩
        exact ⟨fun _ => ⟨by omega, hmix, by omega⟩, fun _ => rfl⟩

/-- Demo header for the seal-verification witness. -/
def headerC6 : Header :=
  { parentHash := 0, uncleHash := 0, coinbase := 0, number := 7, time := 0,
    difficulty := 10, mixDigest := [1, 2], nonce := 0 }

/-- C6 (witness): the seal characterization applied at a concrete header
and concrete hashimoto functions in normal mode. -/
theorem verifySeal_error_cases_witness :
    (Mode.normal ≠ Mode.fake) ∧ (Mode.normal ≠ Mode.fullFake) ∧
      ((verifySeal Mode.normal 0 (fun _ => ([1, 2], 5)) (fun _ => ([1, 2], 5))
            true false headerC6 = SealResult.errInvalidDifficulty ↔
          headerC6.difficulty ≤ 0) ∧
        (0 < headerC6.difficulty →
          (verifySeal Mode.normal 0 (fun _ => ([1, 2], 5))
                (fun _ => ([1, 2], 5)) true false headerC6 =
              SealResult.errInvalidMixDigest ↔
            (sealHashOutput (fun _ => ([1, 2], 5)) (fun _ => ([1, 2], 5)) true
                false headerC6).1 ≠ headerC6.mixDigest)) ∧
        (0 < headerC6.difficulty →
          (sealHashOutput (fun _ => ([1, 2], 5)) (fun _ => ([1, 2], 5)) true
              false headerC6).1 = headerC6.mixDigest →
          (verifySeal Mode.normal 0 (fun _ => ([1, 2], 5))
                (fun _ => ([1, 2], 5)) true false headerC6 =
              SealResult.errInvalidPoW ↔
            two256 / headerC6.difficulty <
              ((sealHashOutput (fun _ => ([1, 2], 5)) (fun _ => ([1, 2], 5))
                  true false headerC6).2 : Int))) ∧
        (verifySeal Mode.normal 0 (fun _ => ([1, 2], 5)) (fun _ => ([1, 2], 5))
              true false headerC6 = SealResult.ok ↔
          (0 < headerC6.difficulty ∧
            (sealHashOutput (fun _ => ([1, 2], 5)) (fun _ => ([1, 2], 5)) true
                false headerC6).1 = headerC6.mixDigest ∧
            ((sealHashOutput (fun _ => ([1, 2], 5)) (fun _ => ([1, 2], 5)) true
                false headerC6).2 : Int) ≤ two256 / headerC6.difficulty))) :=
  ⟨by decide, by decide,
    verifySeal_error_cases Mode.normal 0 (fun _ => ([1, 2], 5))
      (fun _ => ([1, 2], 5)) true false headerC6 (by decide) (by decide)⟩

/-! Uncle verification. -/

/-- Errors `VerifyUncles` can return; failures of the delegated uncle
header verification are passed through unchanged, so the delegate is
modelled as returning an optional `UncleErr`. -/
inductive UncleErr where
  | tooManyUncles
  | duplicateUncle
  | uncleIsAncestor
  | danglingUncle
  | headerError
  deriving DecidableEq, Repr

/-- Model of `types.Block` (header plus uncle list). -/
structure Block where
  header : Header
  uncles : List Header
  deriving DecidableEq, Repr

/-- `maxUncles` from consensus.go. -/
def maxUncles : Nat := 2

/-- The ancestor-collection loop of `VerifyUncles`: walks up to 7
ancestors through the chain reader, recording each ancestor header under
its hash and collecting the hashes of their included uncles.  Stops early
when a header or block is missing. -/
def collectAncestors (getHeader : Nat → Nat → Option Header)
    (getBlockUncles : Nat → Nat → Option (List Header))
    (hashH : Header → Nat) :
    Nat → Nat → Nat → (Nat → Option Header) → Finset Nat →
      ((Nat → Option Header) × Finset Nat)
  | 0, _, _, anc, us => (anc, us)
  | Nat.succ i, parent, number, anc, us =>
    match getHeader parent number with
    | none => (anc, us)
    | some ah =>
      let anc2 := fun h => if h = parent then some ah else anc h
      if ah.uncleHash ≠ emptyUncleHash then
        match getBlockUncles parent number with
        | none => (anc2, us)
        | some bu =>
          collectAncestors getHeader getBlockUncles hashH i ah.parentHash
            (number - 1) anc2 (us ∪ (bu.map hashH).toFinset)
      else
        collectAncestors getHeader getBlockUncles hashH i ah.parentHash
          (number - 1) anc2 us

/-- The (ancestors, uncle hashes) pair built by the walk of `VerifyUncles`
before its checking loop. -/
def uncleWalk (getHeader : Nat → Nat → Option Header)
    (getBlockUncles : Nat → Nat → Option (List Header))
    (hashH : Header → Nat) (block : Block) :
    (Nat → Option Header) × Finset Nat :=
  collectAncestors getHeader getBlockUncles hashH 7 block.header.parentHash
    (block.header.number - 1) (fun _ => none) ∅

/-- The ancestors map of `VerifyUncles` after the walk, with the block
itself added under its own hash. -/
def builtAncestors (getHeader : Nat → Nat → Option Header)
    (getBlockUncles : Nat → Nat → Option (List Header))
    (hashH : Header → Nat) (block : Block) : Nat → Option Header :=
  fun h =>
    if h = hashH block.header then some block.header
    else (uncleWalk getHeader getBlockUncles hashH block).1 h

/-- The uncle-hash set of `VerifyUncles` after the walk, with the block
hash itself added. -/
def builtUncleSet (getHeader : Nat → Nat → Option Header)
    (getBlockUncles : Nat → Nat → Option (List Header))
    (hashH : Header → Nat) (block : Block) : Finset Nat :=
  insert (hashH block.header) (uncleWalk getHeader getBlockUncles hashH block).2

/-- The per-uncle checking loop of `VerifyUncles`: duplicate check against
the accumulated hash set first, then ancestor check, then the two dangling
conditions, then the delegated uncle header verification. -/
def verifyUnclesLoop (verify : Header → Header → Option UncleErr)
    (hashH : Header → Nat) (blockParentHash : Nat)
    (anc : Nat → Option Header) :
    List Header → Finset Nat → Option UncleErr
  | [], _ => none
  | u :: rest, us =>
    let h := hashH u
    if h ∈ us then some UncleErr.duplicateUncle
    else
      let us2 := insert h us
      if (anc h).isSome then some UncleErr.uncleIsAncestor
      else
        match anc u.parentHash with
        | none => some UncleErr.danglingUncle
        | some ph =>
          if u.parentHash = blockParentHash then some UncleErr.danglingUncle
          else
            match verify u ph with
            | some e => some e
            | none => verifyUnclesLoop verify hashH blockParentHash anc rest us2

/-- `VerifyUncles` from consensus.go: full-fake mode accepts everything; at
most two uncles; the walk collects ancestors and their uncles; the loop
rejects duplicates, ancestors, dangling uncles and header failures. -/
def VerifyUncles (getHeader : Nat → Nat → Option Header)
    (getBlockUncles : Nat → Nat → Option (List Header))
    (hashH : Header → Nat) (verify : Header → Header → Option UncleErr)
    (fullFake : Bool) (block : Block) : Option UncleErr :=
  if fullFake then none
  else if block.uncles.length > maxUncles then some UncleErr.tooManyUncles
  else if block.uncles.length = 0 then none
  else
    verifyUnclesLoop verify hashH block.header.parentHash
      (builtAncestors getHeader getBlockUncles hashH block) block.uncles
      (builtUncleSet getHeader getBlockUncles hashH block)

/-- C5: in non-fake mode, a block whose two uncles share one hash is
rejected with the duplicate-uncle error at the second occurrence (the
first uncle passing all its checks), and an uncle whose hash equals the
block hash itself is likewise rejected as a duplicate. -/
theorem verifyUncles_duplicate_detection :
    (∀ (getHeader : Nat → Nat → Option Header)
        (getBlockUncles : Nat → Nat → Option (List Header))
        (hashH : Header → Nat) (verify : Header → Header → Option UncleErr)
        (block : Block) (u1 u2 ph : Header),
      block.uncles = [u1, u2] →
      hashH u1 = hashH u2 →
      hashH u1 ∉ builtUncleSet getHeader getBlockUncles hashH block →
      builtAncestors getHeader getBlockUncles hashH block (hashH u1) = none →
      builtAncestors getHeader getBlockUncles hashH block u1.parentHash =
        some ph →
      u1.parentHash ≠ block.header.parentHash →
      verify u1 ph = none →
      VerifyUncles getHeader getBlockUncles hashH verify false block =
        some UncleErr.duplicateUncle) ∧
      (∀ (getHeader : Nat → Nat → Option Header)
          (getBlockUncles : Nat → Nat → Option (List Header))
          (hashH : Header → Nat) (verify : Header → Header → Option UncleErr)
          (block : Block) (u : Header) (rest : List Header),
        block.uncles = u :: rest →
        block.uncles.length ≤ 2 →
        hashH u = hashH block.header →
        VerifyUncles getHeader getBlockUncles hashH verify false block =
          some UncleErr.duplicateUncle) := by
  constructor
  · intro getHeader getBlockUncles hashH verify block u1 u2 ph huncles hsame
      hnotin hanc1 hanc2 hpar hverify
    unfold VerifyUncles
    rw [if_neg (by simp)]
    rw [huncles]
    rw [if_neg (by simp [maxUncles]), if_neg (by simp)]
    have hmem : hashH u2 ∈
        insert (hashH u1) (builtUncleSet getHeader getBlockUncles hashH block) := by
      rw [← hsame]
      exact Finset.mem_insert_self _ _
    simp only [verifyUnclesLoop, if_neg hnotin, hanc1, Option.isSome_none,
      Bool.false_eq_true, if_false, hanc2, if_neg hpar, hverify, if_pos hmem]
  · intro getHeader getBlockUncles hashH verify block u rest huncles hlen hhash
    unfold VerifyUncles
    rw [if_neg (by simp)]
    rw [huncles] at hlen ⊢
    rw [if_neg (by simp only [maxUncles]; omega), if_neg (by simp)]
    simp only [verifyUnclesLoop]
    rw [if_pos (by rw [hhash]; exact Finset.mem_insert_self _ _)]

/-- Demo ancestor header at block 9 (hash key 100). -/
def ancestorC5a : Header :=
  { parentHash := 101, uncleHash := 0, coinbase := 0, number := 9, time := 0,
    difficulty := 1, mixDigest := [], nonce := 0 }

/-- Demo ancestor header at block 8 (hash key 101). -/
def ancestorC5b : Header :=
  { parentHash := 102, uncleHash := 0, coinbase := 0, number := 8, time := 0,
    difficulty := 1, mixDigest := [], nonce := 0 }

/-- Demo uncle whose parent is the grandparent of the block. -/
def uncleC5 : Header :=
  { parentHash := 101, uncleHash := 0, coinbase := 0, number := 9, time := 5,
    difficulty := 1, mixDigest := [], nonce := 0 }

/-- Demo block at height 10 containing the same uncle twice. -/
def blockC5 : Block :=
  { header :=
      { parentHash := 100, uncleHash := 0, coinbase := 0, number := 10,
        time := 0, difficulty := 1, mixDigest := [], nonce := 0 },
    uncles := [uncleC5, uncleC5] }

/-- Demo chain reader for the uncle-verification witness. -/
def getHeaderC5 : Nat → Nat → Option Header :=
  fun h n =>
    if h = 100 ∧ n = 9 then some ancestorC5a
    else if h = 101 ∧ n = 8 then some ancestorC5b
    else none

/-- Demo hash function: distinguishes headers by number and time. -/
def hashC5 : Header → Nat := fun h => h.number * 1000 + h.time

/-- C5 (witness): the duplicate-uncle theorem applied to a concrete block
with the same uncle submitted twice over a concrete three-block chain. -/
theorem verifyUncles_duplicate_detection_witness :
    blockC5.uncles = [uncleC5, uncleC5] ∧
      hashC5 uncleC5 = hashC5 uncleC5 ∧
      hashC5 uncleC5 ∉
        builtUncleSet getHeaderC5 (fun _ _ => none) hashC5 blockC5 ∧
      builtAncestors getHeaderC5 (fun _ _ => none) hashC5 blockC5
          (hashC5 uncleC5) = none ∧
      builtAncestors getHeaderC5 (fun _ _ => none) hashC5 blockC5
          uncleC5.parentHash = some ancestorC5b ∧
      uncleC5.parentHash ≠ blockC5.header.parentHash ∧
      VerifyUncles getHeaderC5 (fun _ _ => none) hashC5
          (fun _ _ => none) false blockC5 = some UncleErr.duplicateUncle :=
  ⟨by decide, rfl, by decide, by decide, by decide, by decide,
    verifyUncles_duplicate_detection.1 getHeaderC5 (fun _ _ => none) hashC5
      (fun _ _ => none) blockC5 uncleC5 uncleC5 ancestorC5b (by decide) rfl
      (by decide) (by decide) (by decide) (by decide) rfl⟩

/-! Batch header verification: the result-reordering loop of
`VerifyHeaders`.  Workers complete out of order; each completion is a
`done <- index` signal.  The reassembly loop marks the index checked and
then emits every contiguously-ready slot of the errors array on the
results channel.  The loop is modelled as a fold over the completion
order; `emitted` records which error slots were sent, in order. -/

/-- State of the result-reordering loop of `VerifyHeaders`. -/
structure ReorderState where
  checked : Finset Nat
  out : Nat
  emitted : List Nat
  deriving DecidableEq

/-- The inner emission loop `for checked[index] = true; checked[out]; out++`:
while the next slot to emit has completed, emit it and advance.  The fuel
argument bounds the iteration count and is always sufficient. -/
def drainChecked (checked : Finset Nat) : Nat → Nat → List Nat → Nat × List Nat
  | 0, out, emitted => (out, emitted)
  | fuel + 1, out, emitted =>
    if out ∈ checked then drainChecked checked fuel (out + 1) (emitted ++ [out])
    else (out, emitted)

/-- Processing one completion signal: mark the index checked, then emit
every contiguously-ready result. -/
def processDone (n : Nat) (s : ReorderState) (index : Nat) : ReorderState :=
  let checked := insert index s.checked
  let r := drainChecked checked (n + 1) s.out s.emitted
  { checked := checked, out := r.1, emitted := r.2 }

/-- Replaying the reassembly loop of `VerifyHeaders` over a completion
order for n headers. -/
def runReorder (n : Nat) (order : List Nat) : ReorderState :=
  order.foldl (processDone n) { checked := ∅, out := 0, emitted := [] }

theorem drainChecked_range (checked : Finset Nat) (v : Nat) :
    ∀ (fuel out : Nat),
      out ≤ v → v ∉ checked → (∀ m, out ≤ m → m < v → m ∈ checked) →
      v - out ≤ fuel →
      drainChecked checked fuel out (List.range out) = (v, List.range v) := by
  intro fuel
  induction fuel with
  | zero =>
    intro out hov hv hall hfuel
    have : out = v := by omega
    subst this
    rfl
  | succ f ih =>
    intro out hov hv hall hfuel
    by_cases hmem : out ∈ checked
    · have hlt : out < v := by
        rcases Nat.lt_or_ge out v with h | h
        · exact h
        · have : out = v := by omega
          exact absurd (this ▸ hmem) hv
      simp only [drainChecked, if_pos hmem]
      rw [← List.range_succ]
      exact ih (out + 1) (by omega) hv (fun m h1 h2 => hall m (by omega) h2)
        (by omega)
    · have : out = v := by
        rcases Nat.lt_or_ge out v with h | h
        · exact absurd (hall out (le_refl out) h) hmem
        · omega
      subst this
      simp only [drainChecked, if_neg hmem]

/-- Invariant of the reassembly loop: the emitted list is exactly the
initial segment below `out`, `out` itself is not yet checked, everything
below `out` is checked, and only valid indices are checked. -/
def ReorderInv (n : Nat) (s : ReorderState) : Prop :=
  s.emitted = List.range s.out ∧ s.out ∉ s.checked ∧
    (∀ m, m < s.out → m ∈ s.checked) ∧ s.checked ⊆ Finset.range n

theorem processDone_inv (n : Nat) (s : ReorderState) (i : Nat) (hi : i < n)
    (hs : ReorderInv n s) :
    ReorderInv n (processDone n s i) ∧
      (processDone n s i).checked = insert i s.checked := by
  obtain ⟨he, hnot, hall, hsub⟩ := hs
  have hsub2 : insert i s.checked ⊆ Finset.range n := by
    intro x hx
    rcases Finset.mem_insert.mp hx with rfl | hx2
    · exact Finset.mem_range.mpr hi
    · exact hsub hx2
  have houtn : s.out ≤ n := by
    by_contra hgt
    have : n ∈ s.checked := hall n (by omega)
    exact absurd (Finset.mem_range.mp (hsub this)) (by omega)
  have hex : ∃ m, s.out ≤ m ∧ m ∉ insert i s.checked := by
    refine ⟨n, houtn, fun hmem => ?_⟩
    exact absurd (Finset.mem_range.mp (hsub2 hmem)) (by omega)
  classical
  let v := Nat.find hex
  have hv : s.out ≤ v ∧ v ∉ insert i s.checked := Nat.find_spec hex
  have hvle : v ≤ n := Nat.find_min' hex ⟨houtn, fun hmem =>
    absurd (Finset.mem_range.mp (hsub2 hmem)) (by omega)⟩
  have hmin : ∀ m, s.out ≤ m → m < v → m ∈ insert i s.checked := by
    intro m h1 h2
    by_contra hm
    exact absurd (Nat.find_min' hex ⟨h1, hm⟩) (by omega)
  have hdrain :
      drainChecked (insert i s.checked) (n + 1) s.out (List.range s.out) =
        (v, List.range v) :=
    drainChecked_range (insert i s.checked) v (n + 1) s.out hv.1 hv.2 hmin
      (by omega)
  have hps : processDone n s i =
      { checked := insert i s.checked, out := v, emitted := List.range v } := by
    simp only [processDone]
    rw [he, hdrain]
  rw [hps]
  refine ⟨⟨rfl, hv.2, ?_, hsub2⟩, rfl⟩
  intro m hm
  rcases Nat.lt_or_ge m s.out with h | h
  · exact Finset.mem_insert_of_mem (hall m h)
  · exact hmin m h hm

theorem foldl_processDone_inv (n : Nat) (order : List Nat)
    (hmem : ∀ i ∈ order, i < n) :
    ∀ s : ReorderState, ReorderInv n s →
      ReorderInv n (order.foldl (processDone n) s) ∧
        (order.foldl (processDone n) s).checked = s.checked ∪ order.toFinset := by
  induction order with
  | nil =>
    intro s hs
    exact ⟨hs, by simp⟩
  | cons i t ih =>
    intro s hs
    have hi : i < n := hmem i (List.mem_cons_self i t)
    obtain ⟨hinv1, hchk1⟩ := processDone_inv n s i hi hs
    obtain ⟨hinv2, hchk2⟩ :=
      ih (fun j hj => hmem j (List.mem_cons_of_mem i hj)) (processDone n s i)
        hinv1
    refine ⟨hinv2, ?_⟩
    rw [List.foldl_cons] at *
    rw [hchk2, hchk1, List.toFinset_cons, Finset.insert_union,
      Finset.union_insert]

/-- C4: the reassembly loop of `VerifyHeaders` emits exactly one result
per input header, in the original input-index order, for every order in
which the n parallel workers complete (modelled as an arbitrary
permutation of the indices 0..n-1 arriving on the done channel). -/
theorem verifyHeaders_results_in_order (n : Nat) (order : List Nat)
    (hperm : order.Perm (List.range n)) :
    (runReorder n order).emitted = List.range n := by
  have hmem : ∀ i ∈ order, i < n := by
    intro i hi
    have := hperm.mem_iff.mp hi
    simpa using this
  have hinv0 : ReorderInv n { checked := ∅, out := 0, emitted := [] } :=
    ⟨by simp, by simp, by intro m hm; simp at hm, by simp⟩
  obtain ⟨hinv, hchecked⟩ :=
    foldl_processDone_inv n order hmem { checked := ∅, out := 0, emitted := [] }
      hinv0
  have htf : order.toFinset = Finset.range n := by
    ext x
    rw [List.mem_toFinset, hperm.mem_iff, Finset.mem_range, List.mem_range]
  obtain ⟨he, hnot, hall, hsub⟩ := hinv
  have hchk :
      (List.foldl (processDone n) { checked := ∅, out := 0, emitted := [] }
          order).checked = Finset.range n := by
    rw [hchecked, htf]
    simp
  rw [hchk] at hnot hall
  have h1 :
      ¬(List.foldl (processDone n) { checked := ∅, out := 0, emitted := [] }
          order).out < n :=
    fun h => hnot (Finset.mem_range.mpr h)
  have h2 :
      (List.foldl (processDone n) { checked := ∅, out := 0, emitted := [] }
          order).out ≤ n := by
    by_contra hgt
    exact absurd (Finset.mem_range.mp (hall n (by omega))) (by omega)
  have hout :
      (List.foldl (processDone n) { checked := ∅, out := 0, emitted := [] }
          order).out = n := by
    omega
  show (List.foldl (processDone n) { checked := ∅, out := 0, emitted := [] }
      order).emitted = List.range n
  rw [he, hout]

/-- C4 (witness): the ordering theorem applied to three headers whose
workers complete in the order 2, 0, 1. -/
theorem verifyHeaders_results_in_order_witness :
    ([2, 0, 1] : List Nat).Perm (List.range 3) ∧
      (runReorder 3 [2, 0, 1]).emitted = List.range 3 :=
  ⟨by decide, verifyHeaders_results_in_order 3 [2, 0, 1] (by decide)⟩

end Altcoinchain
